import Mathlib

/-!
Verification of the worktree-target resolution and porcelain-parsing engine
of the `ofsht` command-line tool.

The Rust source operates on strings and path component lists.  We embed it
shallowly: strings stay `String`, line splitting mirrors Rust's
`str::lines`, path values used by the root calculator and the lexical
normalizer are lists of `std::path::Component`-style values, and the two
effectful inputs of the target resolver (`canonicalize_allow_missing`,
which reads the filesystem, and `git rev-parse --show-toplevel`, which
spawns a subprocess) are abstracted as an explicit environment record.
-/

namespace Ofsht

/-- Does the character list `p` occur at the front of `l`?  Mirrors the
check performed by Rust's `str::starts_with` on the lists of characters. -/
def charsBegin : List Char → List Char → Bool
  | [], _ => true
  | _ :: _, [] => false
  | a :: as, b :: bs => a == b && charsBegin as bs

/-- Embedding of Rust `str::starts_with(p)`. -/
def strBegins (s p : String) : Bool :=
  charsBegin p.data s.data

/-- Embedding of dropping the first `n` characters of a string, as done by
`str::strip_prefix` once the prefix length is known. -/
def strDrop (s : String) (n : Nat) : String :=
  String.mk (s.data.drop n)

/-- Embedding of keeping the first `n` characters of a string, as done by
`s.chars().take(n).collect()`. -/
def strTake (s : String) (n : Nat) : String :=
  String.mk (s.data.take n)

/-- Embedding of `branch_ref.strip_prefix("refs/heads/").unwrap_or(branch_ref)`. -/
def stripHeads (s : String) : String :=
  if strBegins s "refs/heads/" then strDrop s 11 else s

/-- Strip one trailing carriage return, as Rust `str::lines` does for a
line that was terminated by a newline. -/
def stripCr (l : List Char) : List Char :=
  if l.getLast? = some '\r' then l.dropLast else l

/-- Worker for `rustLines`: `acc` holds the characters of the current line
in reverse order. -/
def rustLinesAux : List Char → List Char → List String
  | acc, [] => if acc = [] then [] else [String.mk acc.reverse]
  | acc, c :: rest =>
    if c = '\n' then String.mk (stripCr acc.reverse) :: rustLinesAux [] rest
    else rustLinesAux (c :: acc) rest

/-- Embedding of Rust `str::lines`: split at newline characters, strip a
carriage return before each newline, and drop a final empty segment. -/
def rustLines (s : String) : List String :=
  rustLinesAux [] s.data

/-- One row of parsed porcelain output (`WorktreeEntry` in
`src/domain/worktree.rs`). -/
structure WorktreeEntry where
  path : String
  branch : Option String
  hash : String
  active : Bool
deriving DecidableEq

/-- Lightweight entry (`SimpleWorktreeEntry` in `src/domain/worktree.rs`). -/
structure SimpleWorktreeEntry where
  path : String
  branch : Option String
deriving DecidableEq

/-- Loop of `parse_worktree_entries`, one step per line.  The state is the
accumulated entries plus the `current_path` / `current_branch` /
`current_hash` options of the Rust loop.  The filesystem-dependent
`is_path_active` check is abstracted as the function `act`. -/
def parseEntriesLoop (act : String → Bool) :
    List String → List WorktreeEntry → Option String → Option String → Option String →
    List WorktreeEntry
  | [], entries, cp, cb, ch =>
    match cp with
    | some path => entries ++ [⟨path, cb, ch.getD "(unknown)", act path⟩]
    | none => entries
  | line :: rest, entries, cp, cb, ch =>
    if strBegins line "worktree " then
      match cp with
      | some path =>
        parseEntriesLoop act rest (entries ++ [⟨path, cb, ch.getD "(unknown)", act path⟩])
          (some (strDrop line 9)) none none
      | none => parseEntriesLoop act rest entries (some (strDrop line 9)) none none
    else if strBegins line "HEAD " then
      parseEntriesLoop act rest entries cp cb (some (strTake (strDrop line 5) 8))
    else if strBegins line "branch " then
      parseEntriesLoop act rest entries cp (some (stripHeads (strDrop line 7))) ch
    else if line = "" then
      match cp with
      | some path =>
        parseEntriesLoop act rest (entries ++ [⟨path, cb, ch.getD "(unknown)", act path⟩])
          none none none
      | none => parseEntriesLoop act rest entries none cb ch
    else
      parseEntriesLoop act rest entries cp cb ch

/-- Embedding of `parse_worktree_entries`.  `act` abstracts the
`is_path_active` check against the caller-supplied active path. -/
def parse_worktree_entries (act : String → Bool) (output : String) : List WorktreeEntry :=
  parseEntriesLoop act (rustLines output) [] none none none

/-- The `is_path_active` function when the caller passes no active path:
it returns `false` for every entry. -/
def noActive : String → Bool := fun _ => false

/-- Loop of `parse_simple_worktree_entries`, one step per line. -/
def parseSimpleLoop :
    List String → List SimpleWorktreeEntry → Option String → Option String →
    List SimpleWorktreeEntry
  | [], entries, cp, cb =>
    match cp with
    | some path => entries ++ [⟨path, cb⟩]
    | none => entries
  | line :: rest, entries, cp, cb =>
    if strBegins line "worktree " then
      match cp with
      | some path =>
        parseSimpleLoop rest (entries ++ [⟨path, cb⟩]) (some (strDrop line 9)) none
      | none => parseSimpleLoop rest entries (some (strDrop line 9)) none
    else if strBegins line "branch " then
      parseSimpleLoop rest entries cp (some (stripHeads (strDrop line 7)))
    else if line = "" then
      match cp with
      | some path => parseSimpleLoop rest (entries ++ [⟨path, cb⟩]) none none
      | none => parseSimpleLoop rest entries none cb
    else
      parseSimpleLoop rest entries cp cb

/-- Embedding of `parse_simple_worktree_entries`. -/
def parse_simple_worktree_entries (output : String) : List SimpleWorktreeEntry :=
  parseSimpleLoop (rustLines output) [] none none

/-- Projection from a full entry to a lightweight entry. -/
def projEntry (e : WorktreeEntry) : SimpleWorktreeEntry :=
  ⟨e.path, e.branch⟩

theorem charsBegin_cons_elim {a : Char} {as l : List Char}
    (h : charsBegin (a :: as) l = true) : ∃ t, l = a :: t ∧ charsBegin as t = true := by
  cases l with
  | nil => simp [charsBegin] at h
  | cons b bs =>
    simp only [charsBegin, Bool.and_eq_true, beq_iff_eq] at h
    exact ⟨bs, by rw [h.1], h.2⟩

theorem charsBegin_false_of_ne {a b : Char} (h : (a == b) = false) (as bs : List Char) :
    charsBegin (a :: as) (b :: bs) = false := by
  simp [charsBegin, h]

theorem head_line_not_branch {l : String} (h : strBegins l "HEAD " = true) :
    strBegins l "branch " = false := by
  unfold strBegins at h ⊢
  rw [show ("HEAD " : String).data = 'H' :: ['E', 'A', 'D', ' '] from rfl] at h
  obtain ⟨t, ht, -⟩ := charsBegin_cons_elim h
  rw [show ("branch " : String).data = 'b' :: ['r', 'a', 'n', 'c', 'h', ' '] from rfl, ht]
  exact charsBegin_false_of_ne (by decide) _ _

theorem head_line_ne_empty {l : String} (h : strBegins l "HEAD " = true) : l ≠ "" := by
  intro he
  subst he
  simp [strBegins, show ("HEAD " : String).data = 'H' :: ['E', 'A', 'D', ' '] from rfl,
    charsBegin] at h

theorem branch_line_ne_empty {l : String} (h : strBegins l "branch " = true) : l ≠ "" := by
  intro he
  subst he
  simp [strBegins, show ("branch " : String).data = 'b' :: ['r', 'a', 'n', 'c', 'h', ' ']
    from rfl, charsBegin] at h

theorem simpleLoop_eq (ls : List String) :
    ∀ (es : List WorktreeEntry) (ss : List SimpleWorktreeEntry) (cp cb ch : Option String),
      ss = es.map projEntry →
      parseSimpleLoop ls ss cp cb =
        (parseEntriesLoop noActive ls es cp cb ch).map projEntry := by
  induction ls with
  | nil =>
    intro es ss cp cb ch hss
    subst hss
    cases cp <;> simp [parseSimpleLoop, parseEntriesLoop, projEntry]
  | cons line rest ih =>
    intro es ss cp cb ch hss
    subst hss
    cases hw : strBegins line "worktree " with
    | true =>
      cases cp with
      | none =>
        simpa [parseSimpleLoop, parseEntriesLoop, hw] using
          ih es (es.map projEntry) (some (strDrop line 9)) none none rfl
      | some p =>
        simpa [parseSimpleLoop, parseEntriesLoop, hw] using
          ih (es ++ [⟨p, cb, ch.getD "(unknown)", noActive p⟩])
            (es.map projEntry ++ [⟨p, cb⟩]) (some (strDrop line 9)) none none
            (by simp [projEntry])
    | false =>
      cases hh : strBegins line "HEAD " with
      | true =>
        have hb := head_line_not_branch hh
        have hne := head_line_ne_empty hh
        simpa [parseSimpleLoop, parseEntriesLoop, hw, hh, hb, hne] using
          ih es (es.map projEntry) cp cb (some (strTake (strDrop line 5) 8)) rfl
      | false =>
        cases hbr : strBegins line "branch " with
        | true =>
          have hne := branch_line_ne_empty hbr
          simpa [parseSimpleLoop, parseEntriesLoop, hw, hh, hbr, hne] using
            ih es (es.map projEntry) cp (some (stripHeads (strDrop line 7))) ch rfl
        | false =>
          by_cases he : line = ""
          · subst he
            cases cp with
            | none =>
              simpa [parseSimpleLoop, parseEntriesLoop, hw, hh, hbr] using
                ih es (es.map projEntry) none cb ch rfl
            | some p =>
              simpa [parseSimpleLoop, parseEntriesLoop, hw, hh, hbr] using
                ih (es ++ [⟨p, cb, ch.getD "(unknown)", noActive p⟩])
                  (es.map projEntry ++ [⟨p, cb⟩]) none none none (by simp [projEntry])
          · simpa [parseSimpleLoop, parseEntriesLoop, hw, hh, hbr, he] using
              ih es (es.map projEntry) cp cb ch rfl

example : rustLines "a\r\nb\n\nc" = ["a", "b", "", "c"] := by decide

example :
    parse_worktree_entries noActive
      "worktree /r/m\nHEAD 1234567890ab\nbranch refs/heads/main\n\nworktree /r/f\n" =
    [⟨"/r/m", some "main", "12345678", false⟩, ⟨"/r/f", none, "(unknown)", false⟩] := by
  decide

/-- C8: the lightweight parser `parse_simple_worktree_entries` returns, for every
input text, exactly the (path, branch) projection of the entries returned by
`parse_worktree_entries` with no active path: same number of entries, same
order, identical path and branch fields. -/
theorem simple_scan_projects_full_scan (s : String) :
    parse_simple_worktree_entries s =
      (parse_worktree_entries noActive s).map projEntry := by
  unfold parse_simple_worktree_entries parse_worktree_entries
  exact simpleLoop_eq (rustLines s) [] [] none none none rfl

/-- Loop of `parse_all_worktrees` (`src/commands/common.rs`): state is
`main_path`, the collected non-main worktrees, `worktree_index`,
`current_path` and `current_branch`. -/
def pawLoop :
    List String → String → List (String × Option String) → Nat → Option String →
    Option String → String × List (String × Option String)
  | [], mp, wts, idx, cp, cb =>
    match cp with
    | some path => if idx = 1 then (path, wts) else (mp, wts ++ [(path, cb)])
    | none => (mp, wts)
  | line :: rest, mp, wts, idx, cp, cb =>
    if strBegins line "worktree " then
      match cp with
      | some path =>
        if idx = 1 then pawLoop rest path wts (idx + 1) (some (strDrop line 9)) none
        else pawLoop rest mp (wts ++ [(path, cb)]) (idx + 1) (some (strDrop line 9)) none
      | none => pawLoop rest mp wts (idx + 1) (some (strDrop line 9)) none
    else if strBegins line "branch " then
      pawLoop rest mp wts idx cp (some (stripHeads (strDrop line 7)))
    else if line = "" then
      match cp with
      | some path =>
        if idx = 1 then pawLoop rest path wts idx none cb
        else pawLoop rest mp (wts ++ [(path, cb)]) idx none none
      | none => pawLoop rest mp wts idx none cb
    else
      pawLoop rest mp wts idx cp cb

/-- Embedding of `parse_all_worktrees`: returns the main worktree path and
the list of non-main worktrees with their optional branches. -/
def parse_all_worktrees (output : String) : String × List (String × Option String) :=
  pawLoop (rustLines output) "" [] 0 none none

/-- Loop of `find_worktree_by_branch` (`src/commands/common.rs`). -/
def fwbLoop : List String → Option String → Nat → String → Option String
  | [], _, _, _ => none
  | line :: rest, cp, idx, bn =>
    if strBegins line "worktree " then
      fwbLoop rest (some (strDrop line 9)) (idx + 1) bn
    else if strBegins line "branch " then
      if 1 < idx ∧ stripHeads (strDrop line 7) = bn then cp
      else fwbLoop rest cp idx bn
    else if line = "" then fwbLoop rest none idx bn
    else fwbLoop rest cp idx bn

/-- Embedding of `find_worktree_by_branch`: the path of the first non-main
worktree whose branch equals `bn`, skipping the main worktree (index 1). -/
def find_worktree_by_branch (output : String) (bn : String) : Option String :=
  fwbLoop (rustLines output) none 0 bn

/-- Ambient effects of the target resolver: `canon` abstracts
`canonicalize_allow_missing` (a filesystem read), and `currentToplevel`
abstracts the result of `git rev-parse --show-toplevel` (`none` models a
failing subprocess). -/
structure Env where
  canon : String → String
  currentToplevel : Option String

/-- Failure modes of `resolve_worktree_target`: the three `bail!` sites of
the Rust function. -/
inductive ResolveError where
  | mainWorktreeTargeted
  | notFound (name : String)
  | notInGitRepo
deriving DecidableEq

/-- Successful resolution result: the tuple
`(canonical_path, worktree_path, branch_name, is_current_worktree)`. -/
structure ResolvedTarget where
  canonicalPath : String
  worktreePath : String
  branchName : Option String
  isCurrent : Bool
deriving DecidableEq

/-- Embedding of `resolve_worktree_target` (`src/commands/common.rs`,
lines 271-387), with the filesystem and subprocess calls supplied by `env`. -/
def resolve_worktree_target (env : Env) (name : String) (list_stdout : String) :
    Except ResolveError ResolvedTarget :=
  let isCur : Bool := name = "."
  let currentStep : Except ResolveError (Option String) :=
    if isCur then
      match env.currentToplevel with
      | some tl => .ok (some tl)
      | none => .error .notInGitRepo
    else .ok none
  match currentStep with
  | .error e => .error e
  | .ok currentPathOpt =>
    let mw := parse_all_worktrees list_stdout
    if name = "@" then .error .mainWorktreeTargeted
    else
      let branchMatch : Option String :=
        if !isCur && !(name == "@") then find_worktree_by_branch list_stdout name
        else none
      match currentPathOpt with
      | some currentPath =>
        let canonicalCurrent := env.canon currentPath
        let canonicalMain := env.canon mw.1
        if canonicalCurrent = canonicalMain then .error .mainWorktreeTargeted
        else
          let currentBranch :=
            match mw.2.find? (fun pb => env.canon pb.1 == canonicalCurrent) with
            | some pb => pb.2
            | none => none
          .ok ⟨canonicalCurrent, currentPath, currentBranch, true⟩
      | none =>
        match branchMatch with
        | some path => .ok ⟨env.canon path, path, some name, false⟩
        | none =>
          let canonicalInput := env.canon name
          let canonicalMain := env.canon mw.1
          if canonicalInput = canonicalMain then .error .mainWorktreeTargeted
          else
            match mw.2.find? (fun pb => env.canon pb.1 == canonicalInput) with
            | some pb => .ok ⟨canonicalInput, pb.1, pb.2, false⟩
            | none => .error (.notFound name)

/-- A porcelain snapshot used to instantiate theorems: main worktree
`/r/main` on branch `main`, plus worktrees `/r/wt/feat` (branch `feat`)
and `/r/wt/other` (branch `other`). -/
def sampleStdout : String :=
  "worktree /r/main\nbranch refs/heads/main\n\nworktree /r/wt/feat\nbranch refs/heads/feat\n\nworktree /r/wt/other\nbranch refs/heads/other\n"

/-- A canonicalization oracle for a symlink-free filesystem with current
working directory `/cwd`: absolute paths are already canonical, relative
paths are resolved against `/cwd`. -/
def sampleCanon : String → String :=
  fun s => if strBegins s "/" then s else "/cwd/" ++ s

/-- Environment whose current toplevel is the `feat` worktree. -/
def sampleEnvFeat : Env := ⟨sampleCanon, some "/r/wt/feat"⟩

/-- Environment whose current toplevel is the main worktree. -/
def sampleEnvMain : Env := ⟨sampleCanon, some "/r/main"⟩

example :
    parse_all_worktrees sampleStdout =
      ("/r/main", [("/r/wt/feat", some "feat"), ("/r/wt/other", some "other")]) := by
  decide

example : find_worktree_by_branch sampleStdout "feat" = some "/r/wt/feat" := by decide

example : find_worktree_by_branch sampleStdout "main" = none := by decide

example :
    resolve_worktree_target sampleEnvFeat "feat" sampleStdout =
      .ok ⟨"/r/wt/feat", "/r/wt/feat", some "feat", false⟩ := rfl

example :
    resolve_worktree_target sampleEnvFeat "@" sampleStdout =
      .error .mainWorktreeTargeted := rfl

example :
    resolve_worktree_target sampleEnvMain "." sampleStdout =
      .error .mainWorktreeTargeted := rfl

example :
    resolve_worktree_target sampleEnvFeat "." sampleStdout =
      .ok ⟨"/r/wt/feat", "/r/wt/feat", some "feat", true⟩ := rfl

example :
    resolve_worktree_target sampleEnvFeat "main" sampleStdout =
      .error (.notFound "main") := rfl

example :
    resolve_worktree_target sampleEnvFeat "nope" sampleStdout =
      .error (.notFound "nope") := rfl

/-- C1: the resolver never successfully resolves to the main worktree: the
token `"@"` fails with `mainWorktreeTargeted` unconditionally; the token
`"."` fails with `mainWorktreeTargeted` whenever the canonical current
toplevel equals the canonical main worktree path; and a path token (one
matching no non-main branch) whose canonical path equals the canonical
main worktree path fails with `mainWorktreeTargeted` rather than
resolving. -/
theorem resolver_never_resolves_main (env : Env) (stdout : String) :
    resolve_worktree_target env "@" stdout = .error .mainWorktreeTargeted ∧
    (∀ tl, env.currentToplevel = some tl →
      env.canon tl = env.canon (parse_all_worktrees stdout).1 →
      resolve_worktree_target env "." stdout = .error .mainWorktreeTargeted) ∧
    (∀ t, t ≠ "." → t ≠ "@" → find_worktree_by_branch stdout t = none →
      env.canon t = env.canon (parse_all_worktrees stdout).1 →
      resolve_worktree_target env t stdout = .error .mainWorktreeTargeted) := by
  refine ⟨?_, ?_, ?_⟩
  · simp [resolve_worktree_target]
  · intro tl htl heq
    simp [resolve_worktree_target, htl, heq]
  · intro t ht1 ht2 hb heq
    simp [resolve_worktree_target, ht1, ht2, hb, heq]

/-- Witness for C1 at a concrete snapshot and environment. -/
theorem resolver_never_resolves_main_witness :
    resolve_worktree_target sampleEnvMain "." sampleStdout =
        .error .mainWorktreeTargeted ∧
    resolve_worktree_target sampleEnvMain "/r/main" sampleStdout =
        .error .mainWorktreeTargeted :=
  ⟨(resolver_never_resolves_main sampleEnvMain sampleStdout).2.1 "/r/main" rfl rfl,
   (resolver_never_resolves_main sampleEnvMain sampleStdout).2.2 "/r/main"
     (by decide) (by decide) (by decide) rfl⟩

/-- C2 (counterexample): resolving the main worktree's own branch name
`"main"` (not matched by any non-main worktree and not path-equal to any
worktree) fails with `notFound`, not with `mainWorktreeTargeted`: the
branch search of the resolver skips the main worktree. -/
theorem main_branch_token_counterexample :
    resolve_worktree_target sampleEnvFeat "main" sampleStdout =
        .error (.notFound "main") ∧
    resolve_worktree_target sampleEnvFeat "main" sampleStdout ≠
        .error .mainWorktreeTargeted := by
  refine ⟨rfl, ?_⟩
  intro h
  rw [show resolve_worktree_target sampleEnvFeat "main" sampleStdout =
      .error (.notFound "main") from rfl] at h
  injection h with h2
  cases h2

/-- C2 (amended): a token `b` that is not `"."` or `"@"`, matches no
non-main worktree's branch (in particular the main worktree's own branch
name, which the branch search always skips), and whose canonical path
equals neither the canonical main worktree path nor any listed non-main
worktree's canonical path, fails with `notFound` — not with
`mainWorktreeTargeted`. -/
theorem main_branch_token_is_not_found (env : Env) (stdout b : String)
    (h1 : b ≠ ".") (h2 : b ≠ "@")
    (hb : find_worktree_by_branch stdout b = none)
    (hmain : env.canon b ≠ env.canon (parse_all_worktrees stdout).1)
    (hwts : ∀ pb ∈ (parse_all_worktrees stdout).2, env.canon pb.1 ≠ env.canon b) :
    resolve_worktree_target env b stdout = .error (.notFound b) := by
  have hfind : (parse_all_worktrees stdout).2.find?
      (fun pb => env.canon pb.1 == env.canon b) = none := by
    rw [List.find?_eq_none]
    intro pb hpb
    simp [hwts pb hpb]
  simp [resolve_worktree_target, h1, h2, hb, hmain, hfind]

/-- Witness for C2's amended theorem: `"main"` is the main worktree's own
branch in `sampleStdout`, and it resolves to `notFound`. -/
theorem main_branch_token_is_not_found_witness :
    resolve_worktree_target sampleEnvFeat "main" sampleStdout =
      .error (.notFound "main") :=
  main_branch_token_is_not_found sampleEnvFeat sampleStdout "main"
    (by decide) (by decide) (by decide) (by decide) (by decide)

/-- C4: when a token `t` (neither `"."` nor `"@"`) matches the branch of a
non-main worktree `p1` and, read as a path, canonicalizes to the path of a
different non-main worktree `p2`, the resolver picks the branch match: it
returns `p1` with branch `some t`, not `p2`. -/
theorem branch_match_beats_path_match (env : Env) (stdout t p1 p2 : String)
    (b2 : Option String)
    (ht1 : t ≠ ".") (ht2 : t ≠ "@")
    (hb : find_worktree_by_branch stdout t = some p1)
    (hw : (p2, b2) ∈ (parse_all_worktrees stdout).2)
    (hc : env.canon t = env.canon p2)
    (hne : env.canon p2 ≠ env.canon p1) :
    resolve_worktree_target env t stdout = .ok ⟨env.canon p1, p1, some t, false⟩ := by
  simp [resolve_worktree_target, ht1, ht2, hb]

/-- Witness for C4: the canonicalization oracle maps the token `feat` to
the path of the `other` worktree, yet resolution returns the `feat`
worktree by branch match. -/
theorem branch_match_beats_path_match_witness :
    resolve_worktree_target ⟨fun s => if s = "feat" then "/r/wt/other" else s, none⟩
        "feat" sampleStdout =
      .ok ⟨"/r/wt/feat", "/r/wt/feat", some "feat", false⟩ :=
  branch_match_beats_path_match
    ⟨fun s => if s = "feat" then "/r/wt/other" else s, none⟩
    sampleStdout "feat" "/r/wt/feat" "/r/wt/other" (some "other")
    (by decide) (by decide) (by decide) (by decide) (by decide) (by decide)

/-- One queued removal: canonical path, worktree path as reported by git,
and optional branch name. -/
structure RemovalTarget where
  canonicalPath : String
  worktreePath : String
  branchName : Option String
deriving DecidableEq

/-- Result of the resolution phase of `cmd_rm_many`: the queued non-current
removals in input order, the optional current-worktree removal, and the
number of duplicate warnings emitted. -/
structure RmPlan where
  nonCurrent : List RemovalTarget
  current : Option RemovalTarget
  warnings : Nat
deriving DecidableEq

/-- Resolution/dedup loop of `cmd_rm_many` (`src/commands/rm.rs`, lines
139-192): resolves every target against the one shared porcelain snapshot
`stdout` before anything is removed; a resolution error aborts the whole
batch, a duplicate canonical path is dropped (or promoted to the current
removal) with a warning. -/
def planLoop (env : Env) (stdout : String) :
    List String → List RemovalTarget → Option RemovalTarget → List String → Nat →
    Except ResolveError RmPlan
  | [], ncs, cur, _, w => .ok ⟨ncs, cur, w⟩
  | t :: rest, ncs, cur, seen, w =>
    match resolve_worktree_target env t stdout with
    | .error e => .error e
    | .ok r =>
      if r.isCurrent then
        if seen.contains r.canonicalPath then
          planLoop env stdout rest
            (ncs.filter (fun x => !(x.canonicalPath == r.canonicalPath)))
            (some ⟨r.canonicalPath, r.worktreePath, r.branchName⟩) seen (w + 1)
        else
          planLoop env stdout rest ncs
            (some ⟨r.canonicalPath, r.worktreePath, r.branchName⟩)
            (seen ++ [r.canonicalPath]) w
      else
        if seen.contains r.canonicalPath then
          planLoop env stdout rest ncs cur seen (w + 1)
        else
          planLoop env stdout rest (ncs ++ [⟨r.canonicalPath, r.worktreePath, r.branchName⟩])
            cur (seen ++ [r.canonicalPath]) w

/-- The resolution phase of `cmd_rm_many` on explicit targets. -/
def plan_removals (env : Env) (targets : List String) (stdout : String) :
    Except ResolveError RmPlan :=
  planLoop env stdout targets [] none [] 0

/-- The removals `cmd_rm_many` executes, in execution order (all
non-current removals first, in input order, then the current one), as
pairs of worktree path and optional branch.  An error means the command
aborted during resolution and executed no removal at all. -/
def cmd_rm_many_removals (env : Env) (targets : List String) (stdout : String) :
    Except ResolveError (List (String × Option String)) :=
  match plan_removals env targets stdout with
  | .error e => .error e
  | .ok plan =>
    .ok (plan.nonCurrent.map (fun r => (r.worktreePath, r.branchName)) ++
      (match plan.current with
       | some r => [(r.worktreePath, r.branchName)]
       | none => []))

theorem planLoop_error_of_mem (env : Env) (stdout : String) :
    ∀ (ts : List String) (ncs : List RemovalTarget) (cur : Option RemovalTarget)
      (seen : List String) (w : Nat),
      (∃ t ∈ ts, ∃ e, resolve_worktree_target env t stdout = .error e) →
      ∃ e, planLoop env stdout ts ncs cur seen w = .error e := by
  intro ts
  induction ts with
  | nil =>
    intro ncs cur seen w h
    obtain ⟨t, ht, -⟩ := h
    exact absurd ht (List.not_mem_nil t)
  | cons t rest ih =>
    intro ncs cur seen w h
    cases hr : resolve_worktree_target env t stdout with
    | error e => exact ⟨e, by simp [planLoop, hr]⟩
    | ok r =>
      obtain ⟨t2, ht2, e2, he2⟩ := h
      rcases List.mem_cons.mp ht2 with heq | hmem
      · subst heq
        rw [hr] at he2
        cases he2
      · have hrest : ∃ t ∈ rest, ∃ e, resolve_worktree_target env t stdout = .error e :=
          ⟨t2, hmem, e2, he2⟩
        cases hc : r.isCurrent with
        | true =>
          by_cases hs : r.canonicalPath ∈ seen
          · simpa [planLoop, hr, hc, hs] using ih _ _ _ _ hrest
          · simpa [planLoop, hr, hc, hs] using ih _ _ _ _ hrest
        | false =>
          by_cases hs : r.canonicalPath ∈ seen
          · simpa [planLoop, hr, hc, hs] using ih _ _ _ _ hrest
          · simpa [planLoop, hr, hc, hs] using ih _ _ _ _ hrest

/-- C5: in a multi-target batch removal, every token is resolved against
the one shared porcelain snapshot before any removal is executed, so if
resolution of any token fails, the whole batch fails and the executed
removal list is empty (an error result carries no removals). -/
theorem batch_resolution_failure_aborts (env : Env) (targets : List String)
    (stdout : String)
    (h : ∃ t ∈ targets, ∃ e, resolve_worktree_target env t stdout = .error e) :
    ∃ e, cmd_rm_many_removals env targets stdout = .error e := by
  obtain ⟨e, he⟩ := planLoop_error_of_mem env stdout targets [] none [] 0 h
  exact ⟨e, by simp [cmd_rm_many_removals, plan_removals, he]⟩

/-- Witness for C5: a batch containing the unknown token `nope` aborts
without executing any removal. -/
theorem batch_resolution_failure_aborts_witness :
    ∃ e, cmd_rm_many_removals sampleEnvFeat ["feat", "nope"] sampleStdout = .error e :=
  batch_resolution_failure_aborts sampleEnvFeat ["feat", "nope"] sampleStdout
    ⟨"nope", by decide, .notFound "nope", rfl⟩

/-- C7: a later token resolving to the same non-current canonical path as
an already-queued one is dropped with one warning instead of failing the
batch: for two tokens resolving (non-current) to the same canonical path,
the plan holds exactly one removal entry, built from the first token's
resolution, plus one warning. -/
theorem batch_duplicate_dropped (env : Env) (stdout t1 t2 : String)
    (r1 r2 : ResolvedTarget)
    (h1 : resolve_worktree_target env t1 stdout = .ok r1)
    (h2 : resolve_worktree_target env t2 stdout = .ok r2)
    (hnc1 : r1.isCurrent = false) (hnc2 : r2.isCurrent = false)
    (hdup : r2.canonicalPath = r1.canonicalPath) :
    plan_removals env [t1, t2] stdout =
      .ok ⟨[⟨r1.canonicalPath, r1.worktreePath, r1.branchName⟩], none, 1⟩ := by
  simp [plan_removals, planLoop, h1, h2, hnc1, hnc2, hdup]

/-- Witness for C7: resolving the tokens `["feat", "feat"]` against one
snapshot yields exactly one non-current removal entry for `feat` plus one
warning. -/
theorem batch_duplicate_dropped_witness :
    plan_removals sampleEnvFeat ["feat", "feat"] sampleStdout =
      .ok ⟨[⟨"/r/wt/feat", "/r/wt/feat", some "feat"⟩], none, 1⟩ :=
  batch_duplicate_dropped sampleEnvFeat sampleStdout "feat" "feat"
    ⟨"/r/wt/feat", "/r/wt/feat", some "feat", false⟩
    ⟨"/r/wt/feat", "/r/wt/feat", some "feat", false⟩
    rfl rfl rfl rfl rfl

/-- One `std::path::Component` of a Unix path: the root directory, `.`,
`..`, or a normal component. -/
inductive PathComp where
  | rootDir
  | curDir
  | parentDir
  | normal (s : String)
deriving DecidableEq

/-- Embedding of `Path::parent` as used by
`calculate_worktree_root_from_paths`: `none` for the empty path and for
the lone root; otherwise drop the last component. -/
def parentPath : List PathComp → Option (List PathComp)
  | [] => none
  | [PathComp.rootDir] => none
  | ps => some ps.dropLast

/-- Embedding of `PathBuf::push` of a single component: pushing the root
directory (an absolute path) replaces the buffer, every other component is
appended. -/
def pushComp : List PathComp → PathComp → List PathComp
  | _, PathComp.rootDir => [PathComp.rootDir]
  | ps, c => ps ++ [c]

/-- Embedding of `PathBuf::pop`: truncate to the parent, a no-op on the
empty path and on the lone root. -/
def popComp : List PathComp → List PathComp
  | [] => []
  | [PathComp.rootDir] => [PathComp.rootDir]
  | ps => ps.dropLast

/-- One step of the lexical normalization loop: skip `.`, pop on `..`,
push everything else. -/
def normStep (acc : List PathComp) (c : PathComp) : List PathComp :=
  match c with
  | PathComp.curDir => acc
  | PathComp.parentDir => popComp acc
  | c => pushComp acc c

/-- Embedding of `normalize_path_lexically` (`src/domain/worktree.rs`,
lines 202-222); never touches the filesystem. -/
def normalize_path_lexically (comps : List PathComp) : List PathComp :=
  comps.foldl normStep []

/-- Length of the common component prefix of two paths: the inner
`zip`-and-break loop of `calculate_worktree_root_from_paths`. -/
def lcpLen : List PathComp → List PathComp → Nat
  | a :: as, b :: bs => if a = b then lcpLen as bs + 1 else 0
  | _, _ => 0

/-- Embedding of `calculate_worktree_root_from_paths`
(`src/domain/worktree.rs`, lines 362-407). -/
def calculate_worktree_root_from_paths : List (List PathComp) → Option (List PathComp)
  | [] => none
  | [p] => parentPath p
  | first :: q :: rest =>
    let commonDepth :=
      (q :: rest).foldl (fun acc p => min acc (lcpLen first p)) first.length
    if commonDepth = 0 then none
    else some ((first.take commonDepth).foldl pushComp [])

/-- A component is a plain (normal) one. -/
def isPlain : PathComp → Bool
  | PathComp.normal _ => true
  | _ => false

/-- Shape of every path built by `normalize_path_lexically`: an optional
leading root directory followed by normal components only. -/
def Flat : List PathComp → Prop
  | [] => True
  | c :: rest => (c = PathComp.rootDir ∨ isPlain c = true) ∧ ∀ x ∈ rest, isPlain x = true

theorem flat_pushComp {acc : List PathComp} (c : PathComp) (h : Flat acc)
    (hc : c = PathComp.rootDir ∨ isPlain c = true) : Flat (pushComp acc c) := by
  rcases hc with hc | hc
  · subst hc
    exact ⟨Or.inl rfl, by intro x hx; exact absurd hx (List.not_mem_nil x)⟩
  · cases c with
    | normal s =>
      cases acc with
      | nil => exact ⟨Or.inr hc, by intro x hx; exact absurd hx (List.not_mem_nil x)⟩
      | cons a rest =>
        refine ⟨h.1, ?_⟩
        intro x hx
        rcases List.mem_append.mp hx with hx | hx
        · exact h.2 x hx
        · rcases List.mem_singleton.mp hx with rfl
          exact hc
    | rootDir => simp [isPlain] at hc
    | curDir => simp [isPlain] at hc
    | parentDir => simp [isPlain] at hc

theorem flat_dropLast {l : List PathComp} (h : Flat l) : Flat l.dropLast := by
  cases l with
  | nil => trivial
  | cons a rest =>
    cases rest with
    | nil => trivial
    | cons b brest =>
      rw [List.dropLast_cons₂]
      exact ⟨h.1, fun x hx => h.2 x (List.dropLast_subset _ hx)⟩

theorem flat_popComp {acc : List PathComp} (h : Flat acc) : Flat (popComp acc) := by
  unfold popComp
  split
  · trivial
  · exact ⟨Or.inl rfl, fun x hx => absurd hx (List.not_mem_nil x)⟩
  · exact flat_dropLast h

theorem flat_normStep_fold :
    ∀ (l : List PathComp) (acc : List PathComp), Flat acc → Flat (l.foldl normStep acc) := by
  intro l
  induction l with
  | nil => intro acc h; exact h
  | cons c rest ih =>
    intro acc h
    rw [List.foldl_cons]
    apply ih
    cases c with
    | curDir => exact h
    | parentDir => simpa [normStep] using flat_popComp h
    | rootDir => simpa [normStep] using flat_pushComp PathComp.rootDir h (Or.inl rfl)
    | normal s => simpa [normStep] using flat_pushComp (PathComp.normal s) h (Or.inr rfl)

theorem normStep_fold_plain :
    ∀ (l acc : List PathComp), (∀ x ∈ l, isPlain x = true) →
      l.foldl normStep acc = acc ++ l := by
  intro l
  induction l with
  | nil => intro acc _; simp
  | cons c rest ih =>
    intro acc h
    have hc : isPlain c = true := h c (List.mem_cons_self c rest)
    have hstep : normStep acc c = acc ++ [c] := by
      cases c with
      | normal s => rfl
      | rootDir => simp [isPlain] at hc
      | curDir => simp [isPlain] at hc
      | parentDir => simp [isPlain] at hc
    rw [List.foldl_cons, hstep, ih _ (fun x hx => h x (List.mem_cons_of_mem c hx))]
    simp

theorem normalize_flat_id {l : List PathComp} (h : Flat l) :
    normalize_path_lexically l = l := by
  cases l with
  | nil => rfl
  | cons c rest =>
    unfold normalize_path_lexically
    rw [List.foldl_cons]
    have hstep : normStep [] c = [c] := by
      rcases h.1 with rfl | hc
      · rfl
      · cases c with
        | normal s => rfl
        | rootDir => simp [isPlain] at hc
        | curDir => simp [isPlain] at hc
        | parentDir => simp [isPlain] at hc
    rw [hstep, normStep_fold_plain rest [c] h.2]
    simp

/-- C9: lexical path normalization is idempotent — normalizing an already
normalized component list is the identity, for every input path. -/
theorem normalize_lexically_idempotent (p : List PathComp) :
    normalize_path_lexically (normalize_path_lexically p) = normalize_path_lexically p :=
  normalize_flat_id (flat_normStep_fold p [] trivial)

/-- A component list as produced by `Path::components` on a well-formed
path never holds the root directory anywhere but in front. -/
def rootOnlyAtHead : List PathComp → Prop
  | [] => True
  | _ :: rest => PathComp.rootDir ∉ rest

theorem foldl_pushComp_no_root :
    ∀ (xs acc : List PathComp), PathComp.rootDir ∉ xs →
      xs.foldl pushComp acc = acc ++ xs := by
  intro xs
  induction xs with
  | nil => intro acc _; simp
  | cons c rest ih =>
    intro acc h
    have hc : pushComp acc c = acc ++ [c] := by
      cases c with
      | rootDir => exact absurd (List.mem_cons_self _ _) h
      | curDir => rfl
      | parentDir => rfl
      | normal s => rfl
    rw [List.foldl_cons, hc, ih _ (fun hx => h (List.mem_cons_of_mem c hx))]
    simp

theorem foldl_pushComp_eq_self {l : List PathComp} (h : rootOnlyAtHead l) :
    l.foldl pushComp [] = l := by
  cases l with
  | nil => rfl
  | cons c rest =>
    have h1 : pushComp [] c = [c] := by cases c <;> rfl
    rw [List.foldl_cons, h1]
    simpa using foldl_pushComp_no_root rest [c] h

theorem rootOnlyAtHead_take {l : List PathComp} (d : Nat) (h : rootOnlyAtHead l) :
    rootOnlyAtHead (l.take d) := by
  cases l with
  | nil => simp [rootOnlyAtHead]
  | cons c rest =>
    cases d with
    | zero => trivial
    | succ d =>
      rw [List.take_succ_cons]
      exact fun hx => h (List.take_subset d rest hx)

/-- C6: `calculate_worktree_root_from_paths` returns `none` on the empty
list; the parent directory for a single path; for two or more paths the
longest shared component prefix of all paths — the minimum over all other
paths of the component-wise common prefix length with the first path,
`none` when that minimum is zero; and on `/a/b/x`, `/a/b/y/z` it returns
`/a/b`. -/
theorem common_root_spec :
    calculate_worktree_root_from_paths [] = none ∧
    (∀ p, calculate_worktree_root_from_paths [p] = parentPath p) ∧
    (∀ p q rest, rootOnlyAtHead p →
      calculate_worktree_root_from_paths (p :: q :: rest) =
        (if (q :: rest).foldl (fun acc x => min acc (lcpLen p x)) p.length = 0 then none
         else some (p.take ((q :: rest).foldl (fun acc x => min acc (lcpLen p x)) p.length)))) ∧
    calculate_worktree_root_from_paths
        [[PathComp.rootDir, PathComp.normal "a", PathComp.normal "b", PathComp.normal "x"],
         [PathComp.rootDir, PathComp.normal "a", PathComp.normal "b", PathComp.normal "y",
          PathComp.normal "z"]] =
      some [PathComp.rootDir, PathComp.normal "a", PathComp.normal "b"] := by
  refine ⟨rfl, fun p => rfl, ?_, by decide⟩
  intro p q rest h
  unfold calculate_worktree_root_from_paths
  by_cases hd : (q :: rest).foldl (fun acc x => min acc (lcpLen p x)) p.length = 0
  · simp [hd]
  · simp only [hd, if_false]
    rw [foldl_pushComp_eq_self (rootOnlyAtHead_take _ h)]

/-- Witness for C6: the general multi-path clause, applied to the two
concrete paths of the claim. -/
theorem common_root_spec_witness :
    calculate_worktree_root_from_paths
        [[PathComp.rootDir, PathComp.normal "a", PathComp.normal "b", PathComp.normal "x"],
         [PathComp.rootDir, PathComp.normal "a", PathComp.normal "b", PathComp.normal "y",
          PathComp.normal "z"]] =
      some [PathComp.rootDir, PathComp.normal "a", PathComp.normal "b"] :=
  (common_root_spec.2.2.1
      [PathComp.rootDir, PathComp.normal "a", PathComp.normal "b", PathComp.normal "x"]
      [PathComp.rootDir, PathComp.normal "a", PathComp.normal "b", PathComp.normal "y",
        PathComp.normal "z"]
      [] (by simp [rootOnlyAtHead])).trans (by decide)

theorem lcpLen_self (p : List PathComp) : lcpLen p p = p.length := by
  induction p with
  | nil => rfl
  | cons c rest ih => simp [lcpLen, ih]

theorem foldl_min_replicate (p : List PathComp) :
    ∀ k, (List.replicate k p).foldl (fun acc x => min acc (lcpLen p x)) p.length =
      p.length := by
  intro k
  induction k with
  | zero => rfl
  | succ k ih =>
    rw [List.replicate_succ, List.foldl_cons, lcpLen_self, Nat.min_self]
    exact ih

theorem parentPath_some {p q : List PathComp} (h : parentPath p = some q) :
    q = p.dropLast := by
  unfold parentPath at h
  split at h
  · cases h
  · cases h
  · injection h with h2
    exact h2.symm

/-- C10: `calculate_worktree_root_from_paths` does not collapse duplicate
inputs: on a list of `n ≥ 2` copies of a nonempty path `p` it returns
`some p` itself (the full shared prefix), while on the single-element list
`[p]` it returns `p`'s parent — a different, one-component-shorter
result. -/
theorem duplicate_paths_keep_whole_path (p : List PathComp) (hne : p ≠ [])
    (hroot : rootOnlyAtHead p) (n : Nat) (hn : 2 ≤ n) :
    calculate_worktree_root_from_paths (List.replicate n p) = some p ∧
    calculate_worktree_root_from_paths [p] = parentPath p ∧
    calculate_worktree_root_from_paths (List.replicate n p) ≠
      calculate_worktree_root_from_paths [p] := by
  obtain ⟨k, rfl⟩ : ∃ k, n = k + 2 := ⟨n - 2, by omega⟩
  have hrep : List.replicate (k + 2) p = p :: p :: List.replicate k p := by
    rw [List.replicate_succ, List.replicate_succ]
  have hfold : (p :: List.replicate k p).foldl
      (fun acc x => min acc (lcpLen p x)) p.length = p.length := by
    rw [List.foldl_cons, lcpLen_self, Nat.min_self]
    exact foldl_min_replicate p k
  have hlen : p.length ≠ 0 := fun h0 => hne (List.length_eq_zero.mp h0)
  have hmain : calculate_worktree_root_from_paths (List.replicate (k + 2) p) = some p := by
    rw [hrep]
    simp only [calculate_worktree_root_from_paths]
    rw [hfold]
    simp only [hlen, if_false]
    rw [List.take_length, foldl_pushComp_eq_self hroot]
  refine ⟨hmain, rfl, ?_⟩
  rw [hmain]
  show some p ≠ calculate_worktree_root_from_paths [p]
  cases hpp : parentPath p with
  | none => simp [calculate_worktree_root_from_paths, hpp]
  | some q =>
    have hq := parentPath_some hpp
    subst hq
    simp only [calculate_worktree_root_from_paths, hpp]
    intro hcontra
    injection hcontra with h2
    have := congrArg List.length h2
    rw [List.length_dropLast] at this
    omega

/-- Witness for C10 at a concrete two-component absolute path. -/
theorem duplicate_paths_keep_whole_path_witness :
    calculate_worktree_root_from_paths
        (List.replicate 2 [PathComp.rootDir, PathComp.normal "a"]) =
      some [PathComp.rootDir, PathComp.normal "a"] :=
  (duplicate_paths_keep_whole_path [PathComp.rootDir, PathComp.normal "a"]
    (by decide) (by simp [rootOnlyAtHead]) 2 (by decide)).1

theorem dataAppend (a b : String) : (a ++ b).data = a.data ++ b.data := by
  cases a
  cases b
  rfl

theorem strMkData (s : String) : String.mk s.data = s := by
  cases s
  rfl

theorem dropLenAppend : ∀ (p t : List Char), (p ++ t).drop p.length = t := by
  intro p
  induction p with
  | nil => intro t; rfl
  | cons a as ih => intro t; simp [List.length_cons, List.drop_succ_cons, ih]

/-- A string that can appear as one line of a text: it holds no newline and
does not end in a carriage return (so `rustLines` recovers it verbatim). -/
def lineOk (s : String) : Prop :=
  '\n' ∉ s.data ∧ s.data.getLast? ≠ some '\r'

instance (s : String) : Decidable (lineOk s) :=
  inferInstanceAs (Decidable (('\n' ∉ s.data) ∧ s.data.getLast? ≠ some '\r'))

/-- Join lines into a text in which every line is terminated by a newline. -/
def unlines : List String → String
  | [] => ""
  | l :: ls => l ++ "\n" ++ unlines ls

theorem rustLinesAux_chunk (cs : List Char) :
    ∀ (acc rest : List Char), '\n' ∉ cs →
      rustLinesAux acc (cs ++ '\n' :: rest) =
        String.mk (stripCr (acc.reverse ++ cs)) :: rustLinesAux [] rest := by
  induction cs with
  | nil =>
    intro acc rest _
    simp [rustLinesAux]
  | cons c cs ih =>
    intro acc rest h
    have hc : ¬ c = '\n' := fun he => h (he ▸ List.mem_cons_self c cs)
    simpa [rustLinesAux, hc] using
      ih (c :: acc) rest (fun hm => h (List.mem_cons_of_mem c hm))

theorem rustLines_unlines : ∀ (ls : List String), (∀ l ∈ ls, lineOk l) →
    rustLines (unlines ls) = ls := by
  intro ls
  induction ls with
  | nil => intro _; rfl
  | cons l ls ih =>
    intro h
    have hl := h l (List.mem_cons_self l ls)
    have hdata : (l ++ "\n" ++ unlines ls).data = l.data ++ '\n' :: (unlines ls).data := by
      rw [dataAppend, dataAppend]
      simp
    show rustLinesAux [] (l ++ "\n" ++ unlines ls).data = l :: ls
    rw [hdata, rustLinesAux_chunk l.data [] (unlines ls).data hl.1]
    have hcr : stripCr l.data = l.data := by
      unfold stripCr
      rw [if_neg hl.2]
    rw [show ([] : List Char).reverse ++ l.data = l.data by simp, hcr, strMkData]
    exact congrArg (l :: ·) (ih (fun x hx => h x (List.mem_cons_of_mem l hx)))

theorem charsBegin_self_append : ∀ (p t : List Char), charsBegin p (p ++ t) = true := by
  intro p
  induction p with
  | nil => intro t; rfl
  | cons a as ih => intro t; simp [charsBegin, ih]

theorem strBegins_append (p s : String) : strBegins (p ++ s) p = true := by
  unfold strBegins
  rw [dataAppend]
  exact charsBegin_self_append p.data s.data

theorem strBegins_ne_first {s p : String} {c d : Char} {ct pt : List Char}
    (hs : s.data = c :: ct) (hp : p.data = d :: pt) (h : (d == c) = false) :
    strBegins s p = false := by
  unfold strBegins
  rw [hs, hp]
  exact charsBegin_false_of_ne h _ _

theorem strDrop_pre (p s : String) (n : Nat) (hn : p.data.length = n) :
    strDrop (p ++ s) n = s := by
  subst hn
  unfold strDrop
  rw [dataAppend, dropLenAppend]

theorem worktree_line_class (p : String) :
    strBegins ("worktree " ++ p) "worktree " = true ∧
      strDrop ("worktree " ++ p) 9 = p :=
  ⟨strBegins_append "worktree " p, strDrop_pre "worktree " p 9 rfl⟩

theorem head_line_class (h : String) :
    strBegins ("HEAD " ++ h) "worktree " = false ∧
      strBegins ("HEAD " ++ h) "HEAD " = true ∧
      strDrop ("HEAD " ++ h) 5 = h := by
  have hs : ("HEAD " ++ h).data = 'H' :: (['E', 'A', 'D', ' '] ++ h.data) := by
    rw [dataAppend]
    rfl
  exact ⟨strBegins_ne_first hs rfl (by decide), strBegins_append "HEAD " h,
    strDrop_pre "HEAD " h 5 rfl⟩

theorem branch_line_class (n : String) :
    strBegins ("branch refs/heads/" ++ n) "worktree " = false ∧
      strBegins ("branch refs/heads/" ++ n) "HEAD " = false ∧
      strBegins ("branch refs/heads/" ++ n) "branch " = true ∧
      stripHeads (strDrop ("branch refs/heads/" ++ n) 7) = n := by
  have hsplit : ("branch refs/heads/" ++ n : String) = "branch " ++ ("refs/heads/" ++ n) := by
    rw [show ("branch refs/heads/" : String) = "branch " ++ "refs/heads/" from rfl,
      String.append_assoc]
  have hs : ("branch refs/heads/" ++ n).data =
      'b' :: (['r', 'a', 'n', 'c', 'h', ' ', 'r', 'e', 'f', 's', '/', 'h', 'e', 'a', 'd',
        's', '/'] ++ n.data) := by
    rw [dataAppend]
    rfl
  refine ⟨strBegins_ne_first hs rfl (by decide), strBegins_ne_first hs rfl (by decide),
    ?_, ?_⟩
  · rw [hsplit]
    exact strBegins_append "branch " ("refs/heads/" ++ n)
  · rw [hsplit, strDrop_pre "branch " ("refs/heads/" ++ n) 7 rfl]
    unfold stripHeads
    rw [if_pos (strBegins_append "refs/heads/" n)]
    exact strDrop_pre "refs/heads/" n 11 rfl

/-- One abstract porcelain block: a `worktree` line, an optional `HEAD`
line, an optional `branch refs/heads/` line, in either order
(`headFirst`). -/
structure PorcelainBlock where
  path : String
  headHex : Option String
  branchName : Option String
  headFirst : Bool
deriving DecidableEq

/-- The `HEAD` lines of a block (zero or one). -/
def headLines (b : PorcelainBlock) : List String :=
  match b.headHex with
  | some h => ["HEAD " ++ h]
  | none => []

/-- The `branch` lines of a block (zero or one). -/
def branchLinesOf (b : PorcelainBlock) : List String :=
  match b.branchName with
  | some n => ["branch refs/heads/" ++ n]
  | none => []

/-- The rendered lines of one block. -/
def blockLines (b : PorcelainBlock) : List String :=
  ("worktree " ++ b.path) ::
    (if b.headFirst then headLines b ++ branchLinesOf b
     else branchLinesOf b ++ headLines b)

/-- The rendered lines of a block sequence: blocks separated by blank
lines; the final block is followed by a blank line iff `trailing`. -/
def porcelainLines : List PorcelainBlock → Bool → List String
  | [], _ => []
  | [b], trailing => blockLines b ++ (if trailing then [""] else [])
  | b :: b2 :: bs, trailing => blockLines b ++ "" :: porcelainLines (b2 :: bs) trailing

/-- The abbreviated hash the parser is expected to record for a block. -/
def headAbbrev (b : PorcelainBlock) : Option String :=
  match b.headHex with
  | some h => some (strTake h 8)
  | none => none

/-- The entry the parser is expected to produce for a block. -/
def blockEntry (b : PorcelainBlock) : WorktreeEntry :=
  ⟨b.path, b.branchName, (headAbbrev b).getD "(unknown)", false⟩

/-- `lineOk` lifted to an optional line fragment. -/
def lineOkOpt : Option String → Prop
  | some s => lineOk s
  | none => True

instance (o : Option String) : Decidable (lineOkOpt o) :=
  match o with
  | some s => inferInstanceAs (Decidable (lineOk s))
  | none => Decidable.isTrue trivial

/-- A block whose fragments contain no newline and no trailing carriage
return, so its rendering survives the `rustLines` round trip. -/
def ValidBlock (b : PorcelainBlock) : Prop :=
  lineOk b.path ∧ lineOkOpt b.headHex ∧ lineOkOpt b.branchName

instance (b : PorcelainBlock) : Decidable (ValidBlock b) :=
  inferInstanceAs (Decidable (lineOk b.path ∧ lineOkOpt b.headHex ∧ lineOkOpt b.branchName))

theorem loop_worktree_step (act : String → Bool) (p : String) (rest : List String)
    (es : List WorktreeEntry) (cp cb ch : Option String) :
    parseEntriesLoop act (("worktree " ++ p) :: rest) es cp cb ch =
      parseEntriesLoop act rest
        (match cp with
         | some q => es ++ [⟨q, cb, ch.getD "(unknown)", act q⟩]
         | none => es)
        (some p) none none := by
  obtain ⟨h1, h2⟩ := worktree_line_class p
  cases cp <;> simp [parseEntriesLoop, h1, h2]

theorem loop_head_step (act : String → Bool) (h : String) (rest : List String)
    (es : List WorktreeEntry) (cp cb ch : Option String) :
    parseEntriesLoop act (("HEAD " ++ h) :: rest) es cp cb ch =
      parseEntriesLoop act rest es cp cb (some (strTake h 8)) := by
  obtain ⟨h1, h2, h3⟩ := head_line_class h
  simp [parseEntriesLoop, h1, h2, h3]

theorem loop_branch_step (act : String → Bool) (n : String) (rest : List String)
    (es : List WorktreeEntry) (cp cb ch : Option String) :
    parseEntriesLoop act (("branch refs/heads/" ++ n) :: rest) es cp cb ch =
      parseEntriesLoop act rest es cp (some n) ch := by
  obtain ⟨h1, h2, h3, h4⟩ := branch_line_class n
  simp [parseEntriesLoop, h1, h2, h3, h4]

theorem loop_blank_flush (act : String → Bool) (rest : List String)
    (es : List WorktreeEntry) (p : String) (cb ch : Option String) :
    parseEntriesLoop act ("" :: rest) es (some p) cb ch =
      parseEntriesLoop act rest (es ++ [⟨p, cb, ch.getD "(unknown)", act p⟩])
        none none none := by
  have h1 : strBegins "" "worktree " = false := by decide
  have h2 : strBegins "" "HEAD " = false := by decide
  have h3 : strBegins "" "branch " = false := by decide
  simp [parseEntriesLoop, h1, h2, h3]

theorem loop_end_flush (act : String → Bool) (es : List WorktreeEntry) (p : String)
    (cb ch : Option String) :
    parseEntriesLoop act [] es (some p) cb ch =
      es ++ [⟨p, cb, ch.getD "(unknown)", act p⟩] := by
  simp [parseEntriesLoop]

theorem loop_headLines (act : String → Bool) (b : PorcelainBlock) (rest : List String)
    (es : List WorktreeEntry) (cp cb ch : Option String) :
    parseEntriesLoop act (headLines b ++ rest) es cp cb ch =
      parseEntriesLoop act rest es cp cb
        (match b.headHex with
         | some h => some (strTake h 8)
         | none => ch) := by
  cases hh : b.headHex with
  | none => simp [headLines, hh]
  | some h => simp [headLines, hh, loop_head_step]

theorem loop_branchLines (act : String → Bool) (b : PorcelainBlock) (rest : List String)
    (es : List WorktreeEntry) (cp cb ch : Option String) :
    parseEntriesLoop act (branchLinesOf b ++ rest) es cp cb ch =
      parseEntriesLoop act rest es cp
        (match b.branchName with
         | some n => some n
         | none => cb) ch := by
  cases hb : b.branchName with
  | none => simp [branchLinesOf, hb]
  | some n => simp [branchLinesOf, hb, loop_branch_step]

theorem loop_block (act : String → Bool) (b : PorcelainBlock) (rest : List String)
    (es : List WorktreeEntry) :
    parseEntriesLoop act (blockLines b ++ rest) es none none none =
      parseEntriesLoop act rest es (some b.path) b.branchName (headAbbrev b) := by
  unfold blockLines
  rw [List.cons_append, loop_worktree_step]
  cases hf : b.headFirst with
  | true =>
    rw [if_pos rfl, List.append_assoc, loop_headLines, loop_branchLines]
    unfold headAbbrev
    cases b.branchName <;> rfl
  | false =>
    rw [if_neg (by simp), List.append_assoc, loop_branchLines, loop_headLines]
    unfold headAbbrev
    cases b.branchName <;> rfl

theorem loop_blocks :
    ∀ (bs : List PorcelainBlock) (trailing : Bool) (es : List WorktreeEntry),
      parseEntriesLoop noActive (porcelainLines bs trailing) es none none none =
        es ++ bs.map blockEntry := by
  intro bs
  induction bs with
  | nil => intro trailing es; simp [porcelainLines, parseEntriesLoop]
  | cons b bs ih =>
    intro trailing es
    cases bs with
    | nil =>
      cases trailing with
      | false =>
        show parseEntriesLoop noActive (blockLines b ++ []) es none none none = _
        rw [loop_block, loop_end_flush]
        simp [blockEntry, noActive]
      | true =>
        show parseEntriesLoop noActive (blockLines b ++ [""]) es none none none = _
        rw [loop_block, loop_blank_flush]
        simp [parseEntriesLoop, blockEntry, noActive]
    | cons b2 bs2 =>
      show parseEntriesLoop noActive
          (blockLines b ++ "" :: porcelainLines (b2 :: bs2) trailing) es none none none = _
      rw [loop_block, loop_blank_flush, ih trailing]
      simp [blockEntry, noActive]

theorem lineOk_append {a b : String} (ha : lineOk a) (hb : lineOk b) : lineOk (a ++ b) := by
  constructor
  · rw [dataAppend]
    intro hm
    rcases List.mem_append.mp hm with hm | hm
    · exact ha.1 hm
    · exact hb.1 hm
  · rw [dataAppend]
    cases hbd : b.data with
    | nil => simpa using ha.2
    | cons c cs =>
      rw [List.getLast?_append_cons]
      have hok := hb.2
      rw [hbd] at hok
      exact hok

theorem blockLines_lineOk {b : PorcelainBlock} (hv : ValidBlock b) :
    ∀ l ∈ blockLines b, lineOk l := by
  intro l hl
  have hhead : ∀ x ∈ headLines b, lineOk x := by
    intro x hx
    cases hh : b.headHex with
    | none => simp [headLines, hh] at hx
    | some h =>
      simp only [headLines, hh] at hx
      rcases List.mem_singleton.mp hx with rfl
      have hok := hv.2.1
      rw [hh] at hok
      exact lineOk_append (by decide) hok
  have hbranch : ∀ x ∈ branchLinesOf b, lineOk x := by
    intro x hx
    cases hb : b.branchName with
    | none => simp [branchLinesOf, hb] at hx
    | some n =>
      simp only [branchLinesOf, hb] at hx
      rcases List.mem_singleton.mp hx with rfl
      have hok := hv.2.2
      rw [hb] at hok
      exact lineOk_append (by decide) hok
  unfold blockLines at hl
  rcases List.mem_cons.mp hl with rfl | hl
  · exact lineOk_append (by decide) hv.1
  · cases hf : b.headFirst with
    | true =>
      rw [hf, if_pos rfl] at hl
      rcases List.mem_append.mp hl with hl | hl
      · exact hhead l hl
      · exact hbranch l hl
    | false =>
      rw [hf, if_neg (by simp)] at hl
      rcases List.mem_append.mp hl with hl | hl
      · exact hbranch l hl
      · exact hhead l hl

theorem porcelainLines_lineOk :
    ∀ (bs : List PorcelainBlock) (trailing : Bool), (∀ b ∈ bs, ValidBlock b) →
      ∀ l ∈ porcelainLines bs trailing, lineOk l := by
  intro bs
  induction bs with
  | nil => intro trailing _ l hl; exact absurd hl (List.not_mem_nil l)
  | cons b bs ih =>
    intro trailing hv l hl
    cases bs with
    | nil =>
      rcases List.mem_append.mp hl with hl | hl
      · exact blockLines_lineOk (hv b (List.mem_cons_self b [])) l hl
      · cases trailing with
        | false => exact absurd hl (List.not_mem_nil l)
        | true =>
          rcases List.mem_singleton.mp hl with rfl
          exact by decide
    | cons b2 bs2 =>
      rcases List.mem_append.mp hl with hl | hl
      · exact blockLines_lineOk (hv b (List.mem_cons_self b (b2 :: bs2))) l hl
      · rcases List.mem_cons.mp hl with rfl | hl
        · exact by decide
        · exact ih trailing (fun x hx => hv x (List.mem_cons_of_mem b hx)) l hl

/-- C3: for all valid porcelain text of `N` blocks — each a `worktree`
line, optionally a `HEAD` line and a `branch refs/heads/` line in either
order, terminated by a blank line or by the end of input — the parser
returns exactly `N` entries in input order; each entry's hash is the
first 8 characters of the block's `HEAD` hex or `"(unknown)"` without a
`HEAD` line, the branch is the block's name with `refs/heads/` stripped
or `none` without a `branch` line; and empty input yields the empty
sequence. -/
theorem parse_porcelain_blocks (bs : List PorcelainBlock) (trailing : Bool)
    (hv : ∀ b ∈ bs, ValidBlock b) :
    parse_worktree_entries noActive (unlines (porcelainLines bs trailing)) =
        bs.map blockEntry ∧
    parse_worktree_entries noActive "" = [] := by
  constructor
  · show parseEntriesLoop noActive
        (rustLines (unlines (porcelainLines bs trailing))) [] none none none = _
    rw [rustLines_unlines (porcelainLines bs trailing) (porcelainLines_lineOk bs trailing hv)]
    simpa using loop_blocks bs trailing []
  · rfl

/-- Witness for C3: the two-block snapshot of the specification's
end-to-end scenario, rendered with a trailing blank line, parses to the
two expected entries with truncated hashes. -/
theorem parse_porcelain_blocks_witness :
    parse_worktree_entries noActive
        (unlines (porcelainLines
          [⟨"/r/main", some "1234567890abcdef1234567890abcdef", some "main", true⟩,
           ⟨"/r/wt/feature", some "abcdef1234567890abcdef1234567890", some "feature", true⟩]
          true)) =
      [⟨"/r/main", some "main", "12345678", false⟩,
       ⟨"/r/wt/feature", some "feature", "abcdef12", false⟩] :=
  (parse_porcelain_blocks
      [⟨"/r/main", some "1234567890abcdef1234567890abcdef", some "main", true⟩,
       ⟨"/r/wt/feature", some "abcdef1234567890abcdef1234567890", some "feature", true⟩]
      true (by decide)).1.trans (by decide)

end Ofsht
